import Mathlib

/-
Verification of the hipster debug-info parser and line-mapping engine.

The TypeScript sources (src/lineMapping.ts, src/highlighting.ts,
src/assemblyViewer.ts) are shallowly embedded here.  JavaScript strings are
modelled as `List Char`; an assembly buffer is a single `List Char` that the
embedded functions split on newline characters, exactly as the source calls
`content.split('\n')`.  JavaScript `Map`s are modelled as association lists
with JS `Map.set`/`Map.get` semantics (`mset` replaces the first binding of a
key in place, otherwise appends; `mget` returns the first binding).  The
string keys `${normalizedPath}:${line}` of `sourceToAsm` are modelled as
pairs `(path, line)`; since the rendered line number never contains a colon,
that key format is in bijection with the pair.  `path.normalize`/`path.join`
are modelled after Node's posix implementations.  The regular expressions of
the source are modelled as leftmost-match scanners; for each regex used by
the source the greedy character classes (`\d+`, `\s+`, `[^"]+`, `\S+`) are
separated by delimiters that cannot extend them, so the deterministic
maximal-munch parse used here coincides with the backtracking regex match.
-/

namespace Hipster

/-! ## Character and list utilities -/

/-- Split a character list at every occurrence of `c`, JS `String.split`
semantics: the empty string yields one empty field. -/
def splitOnChar (c : Char) : List Char → List (List Char)
  | [] => [[]]
  | a :: rest =>
    if a = c then [] :: splitOnChar c rest
    else
      match splitOnChar c rest with
      | l :: ls => (a :: l) :: ls
      | [] => [[a]]

/-- `content.split('\n')`. -/
def splitLines (content : List Char) : List (List Char) :=
  splitOnChar '\n' content

/-- JS `String.prototype.trim` (on the whitespace characters that occur in
assembly text). -/
def trimCl (l : List Char) : List Char :=
  ((l.dropWhile Char.isWhitespace).reverse.dropWhile Char.isWhitespace).reverse

/-- JS `String.prototype.includes` for a substring. -/
def containsSub (pat : List Char) : List Char → Bool
  | [] => pat.isEmpty
  | c :: cs => pat.isPrefixOf (c :: cs) || containsSub pat cs

/-- JS `String.prototype.endsWith`. -/
def endsWithCl (pat l : List Char) : Bool :=
  pat.reverse.isPrefixOf l.reverse

/-- Decimal value of a digit run (the effect of JS `parseInt` on a `\d+`
capture). -/
def digitsToNat (ds : List Char) : Nat :=
  ds.foldl (fun n c => 10 * n + (c.toNat - 48)) 0

/-- Match `\s+`: require at least one whitespace character, then consume the
maximal run.  The tokens following `\s+` in all regexes of the source are
never whitespace, so maximal munch is exact. -/
def parseWS (cs : List Char) : Option (List Char) :=
  match cs with
  | c :: rest => if c.isWhitespace then some (rest.dropWhile Char.isWhitespace) else none
  | [] => none

/-- Match `(\d+)`: a maximal nonempty digit run, returning its value. -/
def parseNatTok (cs : List Char) : Option (Nat × List Char) :=
  let ds := cs.takeWhile Char.isDigit
  if ds.isEmpty then none else some (digitsToNat ds, cs.dropWhile Char.isDigit)

/-- Match `"([^"]+)"`: a quoted nonempty run of non-quote characters. -/
def quotedTok (cs : List Char) : Option (List Char × List Char) :=
  match cs with
  | '"' :: rest =>
    let q := rest.takeWhile (fun c => ¬ c = '"')
    match rest.dropWhile (fun c => ¬ c = '"') with
    | '"' :: rest2 => if q.isEmpty then none else some (q, rest2)
    | _ => none
  | _ => none

/-- Leftmost regex match: try the literal head `pat` at every position, and at
each occurrence attempt the (deterministic) tail parser. -/
def regexFind {α : Type} (pat : List Char) (tail : List Char → Option α) :
    List Char → Option α
  | [] => none
  | c :: cs =>
    if pat.isPrefixOf (c :: cs) then
      match tail ((c :: cs).drop pat.length) with
      | some r => some r
      | none => regexFind pat tail cs
    else regexFind pat tail cs

/-! ## Regex models for the directive grammar -/

/-- Tail of `\.loc\s+(\d+)\s+(\d+)\s+\d+`. -/
def locTail (cs : List Char) : Option (Nat × Nat) := do
  let cs ← parseWS cs
  let (a, cs) ← parseNatTok cs
  let cs ← parseWS cs
  let (b, cs) ← parseNatTok cs
  let cs ← parseWS cs
  let (_, _) ← parseNatTok cs
  pure (a, b)

/-- `line.match(/\.loc\s+(\d+)\s+(\d+)\s+\d+/)`, returning the two captures. -/
def locMatch (l : List Char) : Option (Nat × Nat) :=
  regexFind ('.' :: ('l' :: ['o', 'c'])) locTail l

/-- Tail of `\.globl\s+(\S+)`. -/
def globlTail (cs : List Char) : Option (List Char) := do
  let cs ← parseWS cs
  let t := cs.takeWhile (fun c => ¬ c.isWhitespace)
  if t.isEmpty then none else pure t

/-- `line.match(/\.globl\s+(\S+)/)`, returning the captured symbol. -/
def globlMatch (l : List Char) : Option (List Char) :=
  regexFind (".globl".data) globlTail l

/-- Tail of `\.section\s+\.text\.`. -/
def sectionTail (cs : List Char) : Option Unit :=
  match parseWS cs with
  | some cs2 => if (".text.".data).isPrefixOf cs2 then some () else none
  | none => none

/-- `line.match(/\.section\s+\.text\./)` as a Boolean test. -/
def sectionHit (l : List Char) : Bool :=
  (regexFind (".section".data) sectionTail l).isSome

/-- Tail of `\.file\s+(\d+)\s+"([^"]+)"\s+"([^"]+)"`. -/
def file1Tail (cs : List Char) : Option (Nat × List Char × List Char) := do
  let cs ← parseWS cs
  let (id, cs) ← parseNatTok cs
  let cs ← parseWS cs
  let (d, cs) ← quotedTok cs
  let cs ← parseWS cs
  let (f, _) ← quotedTok cs
  pure (id, d, f)

/-- Tail of `\.file\s+(\d+)\s+"([^"]+)"`. -/
def file2Tail (cs : List Char) : Option (Nat × List Char) := do
  let cs ← parseWS cs
  let (id, cs) ← parseNatTok cs
  let cs ← parseWS cs
  let (p, _) ← quotedTok cs
  pure (id, p)

/-- Two-argument `.file` directive match. -/
def file1Match (l : List Char) : Option (Nat × List Char × List Char) :=
  regexFind (".file".data) file1Tail l

/-- One-argument `.file` directive match. -/
def file2Match (l : List Char) : Option (Nat × List Char) :=
  regexFind (".file".data) file2Tail l

/-- `HipCompiler.isGCNAssembly`:
`filename.includes('-hip-amdgcn-amd-amdhsa-') && filename.endsWith('.s')`. -/
def isGCNAssembly (name : List Char) : Bool :=
  containsSub ("-hip-amdgcn-amd-amdhsa-".data) name && endsWithCl (".s".data) name

/-! ## Node `path.posix` model -/

/-- One step of Node's `normalizeString`: resolve a path segment against the
stack of kept segments (`allowUp` is `!isAbsolute`). -/
def normSegStep (allowUp : Bool) (stack : List (List Char)) (seg : List Char) :
    List (List Char) :=
  if seg.isEmpty ∨ seg = ['.'] then stack
  else if seg = ['.', '.'] then
    match stack with
    | s :: rest => if s = ['.', '.'] then (if allowUp then seg :: stack else stack) else rest
    | [] => if allowUp then [seg] else []
  else seg :: stack

/-- Node `path.posix.normalize`. -/
def normalize (p : List Char) : List Char :=
  match p with
  | [] => ['.']
  | _ =>
    let isAbs : Bool := p.head? = some '/'
    let trailing : Bool := p.getLast? = some '/'
    let segs := ((splitOnChar '/' p).foldl (normSegStep (!isAbs)) []).reverse
    let body := List.intercalate ['/'] segs
    if body.isEmpty then
      if isAbs then ['/'] else if trailing then ['.', '/'] else ['.']
    else
      let body2 := if trailing then body ++ ['/'] else body
      if isAbs then '/' :: body2 else body2

/-- Node `path.posix.join` restricted to two arguments. -/
def join2 (a b : List Char) : List Char :=
  if a.isEmpty ∧ b.isEmpty then ['.']
  else if a.isEmpty then normalize b
  else if b.isEmpty then normalize a
  else normalize (a ++ '/' :: b)

/-! ## JS `Map` model -/

/-- `Map.get`. -/
def mget {κ β : Type} [DecidableEq κ] : List (κ × β) → κ → Option β
  | [], _ => none
  | e :: m, k => if e.1 = k then some e.2 else mget m k

/-- `Map.set`: replace the first binding of the key in place, else append. -/
def mset {κ β : Type} [DecidableEq κ] : List (κ × β) → κ → β → List (κ × β)
  | [], k, v => [(k, v)]
  | e :: m, k, v => if e.1 = k then (k, v) :: m else e :: mset m k v

/-! ## LineMappingBuilder (src/lineMapping.ts) -/

/-- Trimmed text is a bare label: `trimmed.endsWith(':') && !trimmed.includes(' ')`. -/
def isLabelCl (t : List Char) : Bool :=
  (t.getLast? = some ':' : Bool) && !(t.contains ' ')

/-- The instruction filter of `buildMapping` (lines 55-61 of lineMapping.ts):
not empty, not a directive, not a `;`/`//` comment, not a bare label. -/
def isInstrFull (l : List Char) : Bool :=
  let t := trimCl l
  !t.isEmpty && !(['.'].isPrefixOf t) && !([';'].isPrefixOf t)
    && !(['/', '/'].isPrefixOf t) && !(isLabelCl t)

/-- The instruction filter of `findAssemblyLinesForSourceLine` (lines 464-469
of highlighting.ts): same as above but with no label check. -/
def isInstrBasic (l : List Char) : Bool :=
  let t := trimCl l
  !t.isEmpty && !(['.'].isPrefixOf t) && !([';'].isPrefixOf t)
    && !(['/', '/'].isPrefixOf t)

/-- State update of `buildMapping`: a `.loc` match sets
`currentFileId`/`currentSourceLine`, the line converted to 0-indexed. -/
def locStep (st : Int × Int) (l : List Char) : Int × Int :=
  match locMatch l with
  | some (f, L) => ((f : Int), (L : Int) - 1)
  | none => st

/-- State update of `findAssemblyLinesForSourceLine`: identical except the
line is kept 1-indexed. -/
def locStepRaw (st : Int × Int) (l : List Char) : Int × Int :=
  match locMatch l with
  | some (f, L) => ((f : Int), (L : Int))
  | none => st

/-- Specification-side raw state: the captures of the most recent `.loc`
match, if any. -/
def rawStep (r : Option (Nat × Nat)) (l : List Char) : Option (Nat × Nat) :=
  match locMatch l with
  | some fl => some fl
  | none => r

/-- Raw state after a list of lines. -/
def rawState (ls : List (List Char)) (r : Option (Nat × Nat)) : Option (Nat × Nat) :=
  ls.foldl rawStep r

/-- Raw state in effect at line index `i` (the `.loc` update of line `i`
itself included, as in both source loops). -/
def rawStateAt (ls : List (List Char)) (i : Nat) : Option (Nat × Nat) :=
  rawState (ls.take (i + 1)) none

/-- `buildMapping`'s machine state as a function of the raw state. -/
def bmSt : Option (Nat × Nat) → Int × Int
  | none => (-1, -1)
  | some (f, L) => ((f : Int), (L : Int) - 1)

/-- `findAssemblyLinesForSourceLine`'s machine state as a function of the raw
state. -/
def faSt : Option (Nat × Nat) → Int × Int
  | none => (-1, -1)
  | some (f, L) => ((f : Int), (L : Int))

/-- The two maps of `LineMapping`.  Forward keys `(normalizedPath, line)`
model the strings `${normalizedPath}:${line}`. -/
structure LineMapping where
  sourceToAsm : List ((List Char × Int) × List Nat)
  asmToSource : List (Nat × (List Char × Int))
deriving DecidableEq

/-- Body of the `buildMapping` loop after the `.loc` update: record line `i`
in the reverse map and, for genuine instructions, append it to the forward
bucket (lines 43-71 of lineMapping.ts). -/
def recordLine (table : List (Nat × List Char)) (st : Int × Int) (i : Nat)
    (l : List Char) (m : LineMapping) : LineMapping :=
  if 0 ≤ st.1 ∧ 0 ≤ st.2 then
    match mget table st.1.toNat with
    | some p =>
      let np := normalize p
      let m1 : LineMapping := { m with asmToSource := mset m.asmToSource i (np, st.2) }
      if isInstrFull l then
        { m1 with
          sourceToAsm :=
            mset m1.sourceToAsm (np, st.2)
              ((mget m1.sourceToAsm (np, st.2)).getD [] ++ [i]) }
      else m1
    | none => m
  else m

/-- The `buildMapping` loop. -/
def buildLines (table : List (Nat × List Char)) :
    List (List Char) → Nat → Int × Int → LineMapping → LineMapping
  | [], _, _, m => m
  | l :: ls, i, st, m =>
    let st2 := locStep st l
    buildLines table ls (i + 1) st2 (recordLine table st2 i l m)

/-- `LineMappingBuilder.buildMapping`. -/
def buildMapping (content : List Char) (table : List (Nat × List Char)) : LineMapping :=
  buildLines table (splitLines content) 0 (-1, -1) ⟨[], []⟩

/-- `LineMappingBuilder.getAssemblyLines`. -/
def getAssemblyLines (m : LineMapping) (sourceFile : List Char) (sourceLine : Int) :
    List Nat :=
  (mget m.sourceToAsm (normalize sourceFile, sourceLine)).getD []

/-- `LineMappingBuilder.getSourceLocation`. -/
def getSourceLocation (m : LineMapping) (assemblyLine : Nat) : Option (List Char × Int) :=
  mget m.asmToSource assemblyLine

/-- Reverse-map entry of `buildMapping` as a recursion over the remaining
lines (used only in proofs). -/
def revSpec (table : List (Nat × List Char)) :
    List (List Char) → Nat → Int × Int → Nat → Option (List Char × Int)
  | [], _, _, _ => none
  | l :: ls, i, st, j =>
    let st2 := locStep st l
    if j = i then
      if 0 ≤ st2.1 ∧ 0 ≤ st2.2 then
        match mget table st2.1.toNat with
        | some p => some (normalize p, st2.2)
        | none => none
      else none
    else revSpec table ls (i + 1) st2 j

/-- Reverse-map entry as a function of the raw state (used only in proofs). -/
def stF (table : List (Nat × List Char)) (r : Option (Nat × Nat)) :
    Option (List Char × Int) :=
  match r with
  | some (f, L) =>
    if 1 ≤ L then
      match mget table f with
      | some p => some (normalize p, (L : Int) - 1)
      | none => none
    else none
  | none => none

/-! ## HipCompiler (src/highlighting.ts) -/

/-- The loop of `findAssemblyLinesForSourceLine`. -/
def findLines (fileId sourceLine : Nat) :
    List (List Char) → Nat → Int × Int → List Nat → List Nat
  | [], _, _, acc => acc
  | l :: ls, i, st, acc =>
    let st2 := locStepRaw st l
    let acc2 :=
      if st2.1 = (fileId : Int) ∧ st2.2 = (sourceLine : Int) ∧ isInstrBasic l then
        acc ++ [i]
      else acc
    findLines fileId sourceLine ls (i + 1) st2 acc2

/-- `HipCompiler.findAssemblyLinesForSourceLine`. -/
def findAssemblyLinesForSourceLine (content : List Char) (fileId sourceLine : Nat) :
    List Nat :=
  findLines fileId sourceLine (splitLines content) 0 (-1, -1) []

/-- Shared loop of the two `.file`-table extractors; `v1`/`v2` are the path
transforms the two sources apply to the two directive forms. -/
def extractFilesGo (v1 : List Char → List Char → List Char) (v2 : List Char → List Char) :
    List (List Char) → List (Nat × List Char) → List (Nat × List Char)
  | [], t => t
  | l :: ls, t =>
    match file1Match l with
    | some (id, d, f) => extractFilesGo v1 v2 ls (mset t id (v1 d f))
    | none =>
      match file2Match l with
      | some (id, p) => extractFilesGo v1 v2 ls (mset t id (v2 p))
      | none => extractFilesGo v1 v2 ls t

/-- `HipCompiler.extractSourceFiles`: two-argument form stores
`path.normalize(path.join(dir, file))`, one-argument form stores
`path.normalize(path)`. -/
def extractSourceFiles (content : List Char) : List (Nat × List Char) :=
  extractFilesGo (fun d f => normalize (join2 d f)) (fun p => normalize p)
    (splitLines content) []

/-- The `(id, storedPath)` contribution of one line under the given path
transforms (used only in proofs). -/
def fileEntryOf (v1 : List Char → List Char → List Char) (v2 : List Char → List Char)
    (l : List Char) : Option (Nat × List Char) :=
  match file1Match l with
  | some (id, d, f) => some (id, v1 d f)
  | none =>
    match file2Match l with
    | some (id, p) => some (id, v2 p)
    | none => none

/-- Indices (from `i0`) of the lines satisfying `p`. -/
def idxWhere (p : List Char → Bool) : List (List Char) → Nat → List Nat
  | [], _ => []
  | l :: ls, i => if p l then i :: idxWhere p ls (i + 1) else idxWhere p ls (i + 1)

/-- The `.globl` fallback filter of `extractAllKernels`:
`!symbol.includes('.') && symbol.length > 5`. -/
def kernelSymFilter (s : List Char) : Bool :=
  !(s.contains '.') && decide (5 < s.length)

/-- A line's qualifying `.globl` symbol, if any. -/
def kernelGlobl (l : List Char) : Option (List Char) :=
  match globlMatch l with
  | some s => if kernelSymFilter s then some s else none
  | none => none

/-- Fallback boundary test: a line with a qualifying `.globl`. -/
def fallbackHit (l : List Char) : Bool :=
  (kernelGlobl l).isSome

/-- The boundary lines of `extractAllKernels`: `.text` section directives,
falling back to qualifying `.globl` lines when none exist. -/
def kernelBoundaries (content : List Char) : List Nat :=
  let lines := splitLines content
  let secs := idxWhere sectionHit lines 0
  if secs.isEmpty then idxWhere fallbackHit lines 0 else secs

/-- `(startLine, endLine)` spans from the boundary list: each boundary ends at
the line before the next one, the last ends at the buffer's last line. -/
def regionsOf : List Nat → Nat → List (Nat × Nat)
  | [], _ => []
  | b :: rest, n =>
    match rest with
    | [] => [(b, n - 1)]
    | b2 :: _ => (b, b2 - 1) :: regionsOf rest n

/-- Search the first 21 lines of a region (capped at its end) for a
qualifying `.globl` symbol. -/
def searchSym (lines : List (List Char)) (s e : Nat) : Option (List Char) :=
  ((lines.drop s).take (min e (s + 20) + 1 - s)).findSome? kernelGlobl

/-- One kernel region. -/
structure Kernel where
  symbol : List Char
  startLine : Nat
  endLine : Nat
deriving DecidableEq

/-- `HipCompiler.extractAllKernels`. -/
def extractAllKernels (content : List Char) : List Kernel :=
  let lines := splitLines content
  (regionsOf (kernelBoundaries content) lines.length).filterMap fun r =>
    (searchSym lines r.1 r.2).map fun sym => ⟨sym, r.1, r.2⟩

/-! ## AssemblyViewerPanel (src/assemblyViewer.ts) -/

/-- `AssemblyViewerPanel.extractSourceFilesFromAssembly`: two-argument form
stores `path.join(dir, file)`, one-argument form stores the raw path. -/
def extractSourceFilesFromAssembly (content : List Char) : List (Nat × List Char) :=
  extractFilesGo (fun d f => join2 d f) (fun p => p) (splitLines content) []

/-- `content.split('\n').slice(startLine, endLine + 1)`. -/
def regionLines (content : List Char) (s e : Nat) : List (List Char) :=
  ((splitLines content).drop s).take (e + 1 - s)

/-- The positional diff alignment computed by `getDiffViewContent` (lines
1307-1317 of assemblyViewer.ts): pad with empty strings to the longer length
and flag positions whose raw lines differ. -/
def diffAlign (lines1 lines2 : List (List Char)) :
    List (List Char × List Char × Bool) :=
  (List.range (max lines1.length lines2.length)).map fun i =>
    let l1 := lines1.getD i []
    let l2 := lines2.getD i []
    (l1, l2, decide (¬ l1 = l2))

/-- The fields of an `AssemblyMatch` that the staleness logic of
`getWebviewContent` consults; the modification time is read through an
external `mtimeOf` map (statSync with its catch-to-0 already applied). -/
structure MatchRec where
  kernelSymbol : List Char
  assemblyFile : List Char
  buildDirectory : List Char
deriving DecidableEq

/-- `this._matches.filter(m => m.kernelSymbol === selected.kernelSymbol)`. -/
def sameKernelMatches (sel : MatchRec) (ms : List MatchRec) : List MatchRec :=
  ms.filter fun m => decide (m.kernelSymbol = sel.kernelSymbol)

/-- Insert into a descending-by-mtime list after all records of at least the
same mtime (the placement a stable descending sort gives earlier records). -/
def insertDesc (mt : List Char → Nat) (x : MatchRec) : List MatchRec → List MatchRec
  | [] => [x]
  | y :: ys =>
    if mt y.assemblyFile < mt x.assemblyFile then x :: y :: ys
    else y :: insertDesc mt x ys

/-- The stable descending-by-mtime sort of
`matchesWithTimestamps.sort((a, b) => b.timestamp - a.timestamp)`. -/
def sortDesc (mt : List Char → Nat) (l : List MatchRec) : List MatchRec :=
  l.foldl (fun acc x => insertDesc mt x acc) []

/-- `matchesWithTimestamps[0].match` of the staleness block. -/
def latestMatch (mt : List Char → Nat) (sel : MatchRec) (ms : List MatchRec) :
    Option MatchRec :=
  (sortDesc mt (sameKernelMatches sel ms)).head?

/-- The `!isLatest` flag of `getWebviewContent` (lines 333-369 of
assemblyViewer.ts). -/
def isOutdated (mt : List Char → Nat) (sel : MatchRec) (ms : List MatchRec) : Bool :=
  let same := sameKernelMatches sel ms
  if 1 < same.length then
    match (sortDesc mt same).head? with
    | some latest => if latest.assemblyFile = sel.assemblyFile then false else true
    | none => false
  else false

/-! ## Scanner (findAssemblyFiles / scanDirectory) -/

/-- A filesystem entry as the scanner observes it: `statOk` is whether
`stat(fullPath)` succeeds, `readOk` whether `readFile` (for files) or
`readdir` (for directories) succeeds. -/
inductive FSEntry : Type where
  | file (name : List Char) (statOk readOk : Bool) (content : List Char) : FSEntry
  | dir (name : List Char) (statOk readOk : Bool) (entries : List FSEntry) : FSEntry

/-- An `AssemblyFile` record produced by the scanner. -/
structure AsmFileRec where
  assemblyPath : List Char
  kernelSymbol : List Char
  sourceFiles : List (Nat × List Char)
  startLine : Nat
  endLine : Nat
  buildDirectory : List Char
  assemblyContent : List Char
deriving DecidableEq

/-- The records pushed for one readable assembly file (lines 203-218 of
highlighting.ts). -/
def kernelRecs (fullPath tag content : List Char) : List AsmFileRec :=
  (extractAllKernels content).map fun k =>
    ⟨fullPath, k.symbol, extractSourceFiles content, k.startLine, k.endLine, tag, content⟩

/-- The entry loop of `scanDirectory`.  A failing `stat` raises out of the
loop into the enclosing catch, so the remaining entries of this directory are
abandoned (results already accumulated are kept by the caller); a failing
`readFile` is caught by the inner try and only skips that file; a failing
`readdir` of a subdirectory is caught inside the recursive call. -/
def scanEntries (tag : List Char) : List Char → List FSEntry → List AsmFileRec
  | _, [] => []
  | p, e :: rest =>
    match e with
    | .file n sOk rOk content =>
      if sOk then
        (if isGCNAssembly n then
          (if rOk then kernelRecs (join2 p n) tag content else [])
         else []) ++ scanEntries tag p rest
      else []
    | .dir n sOk rOk ents =>
      if sOk then
        (if rOk then scanEntries tag (join2 p n) ents else []) ++ scanEntries tag p rest
      else []

/-- `scanDirectory` on a root directory entry. -/
def scanDirEntry (tag p : List Char) : FSEntry → List AsmFileRec
  | .file _ _ _ _ => []
  | .dir _ _ rOk ents => if rOk then scanEntries tag p ents else []

/-- One configured build root: its name and, when `existsSync` holds, its
directory entry. -/
def scanRoot (ws : List Char) (r : List Char × Option FSEntry) : List AsmFileRec :=
  match r.2 with
  | none => []
  | some e => scanDirEntry r.1 (join2 ws r.1) e

/-- `HipCompiler.findAssemblyFiles` over the configured build roots. -/
def findAssemblyFiles (ws : List Char) : List (List Char × Option FSEntry) → List AsmFileRec
  | [] => []
  | r :: rest => scanRoot ws r ++ findAssemblyFiles ws rest

/-- `t'` is `t` with a single file whose read fails (stat fine) deleted,
possibly inside a nested directory. -/
inductive RemovedRead : List FSEntry → List FSEntry → Prop where
  | here (l1 l2 : List FSEntry) (n c : List Char) :
      RemovedRead (l1 ++ FSEntry.file n true false c :: l2) (l1 ++ l2)
  | inDir (l1 l2 : List FSEntry) (n : List Char) (sOk rOk : Bool)
      (ents ents' : List FSEntry) :
      RemovedRead ents ents' →
      RemovedRead (l1 ++ FSEntry.dir n sOk rOk ents :: l2)
        (l1 ++ FSEntry.dir n sOk rOk ents' :: l2)

/-! ## Proof-side helper definitions -/

/-- A forward bucket of a mapping (empty when the key is absent), as
`getAssemblyLines` reads it. -/
def bucketOf (m : LineMapping) (K : List Char × Int) : List Nat :=
  (mget m.sourceToAsm K).getD []

/-- Value of the last entry for `id` in an `(id, path)` sequence, starting
from `cur` — the last-write-wins semantics of repeated `Map.set`. -/
def lastVal (id : Nat) : List (Nat × List Char) → Option (List Char) → Option (List Char)
  | [], cur => cur
  | e :: es, cur => lastVal id es (if e.1 = id then some e.2 else cur)

/-! ## Association-list map lemmas -/

theorem mget_mset_self {κ β : Type} [DecidableEq κ] (m : List (κ × β)) (k : κ) (v : β) :
    mget (mset m k v) k = some v := by
  induction m with
  | nil => simp [mset, mget]
  | cons e m ih =>
    by_cases h : e.1 = k
    · simp [mset, h, mget]
    · simp [mset, h, mget, ih]

theorem mget_mset_ne {κ β : Type} [DecidableEq κ] (m : List (κ × β)) (k k' : κ) (v : β)
    (h : ¬ k' = k) : mget (mset m k v) k' = mget m k' := by
  induction m with
  | nil =>
    simp only [mset, mget]
    rw [if_neg fun hh => h hh.symm]
  | cons e m ih =>
    by_cases h1 : e.1 = k
    · simp only [mset, if_pos h1, mget]
      rw [if_neg fun hh => h hh.symm, if_neg (h1 ▸ fun hh => h hh.symm)]
    · simp only [mset, if_neg h1, mget, ih]

theorem mget_mem {κ β : Type} [DecidableEq κ] (m : List (κ × β)) (k : κ) (v : β)
    (h : mget m k = some v) : (k, v) ∈ m := by
  induction m with
  | nil => simp [mget] at h
  | cons e m ih =>
    rcases e with ⟨k0, v0⟩
    simp only [mget] at h
    by_cases h1 : k0 = k
    · rw [if_pos h1] at h
      injection h with h2
      subst h1; subst h2
      exact List.mem_cons_self _ _
    · rw [if_neg h1] at h
      exact List.mem_cons_of_mem _ (ih h)

/-! ## State coupling lemmas -/

theorem locStep_bmSt (r : Option (Nat × Nat)) (l : List Char) :
    locStep (bmSt r) l = bmSt (rawStep r l) := by
  unfold locStep rawStep
  cases h : locMatch l with
  | none => rfl
  | some fl => rcases fl with ⟨f, L⟩; rfl

theorem locStepRaw_faSt (r : Option (Nat × Nat)) (l : List Char) :
    locStepRaw (faSt r) l = faSt (rawStep r l) := by
  unfold locStepRaw rawStep
  cases h : locMatch l with
  | none => rfl
  | some fl => rcases fl with ⟨f, L⟩; rfl

theorem rawState_cons (l : List Char) (t : List (List Char)) (r : Option (Nat × Nat)) :
    rawState (l :: t) r = rawState t (rawStep r l) := rfl

theorem faSt_eq_iff (r : Option (Nat × Nat)) (f L : Nat) :
    ((faSt r).1 = (f : Int) ∧ (faSt r).2 = (L : Int)) ↔ r = some (f, L) := by
  cases r with
  | none =>
    simp only [faSt]
    constructor
    · rintro ⟨h1, _⟩; omega
    · intro h; cases h
  | some fl =>
    rcases fl with ⟨f', L'⟩
    simp only [faSt, Option.some.injEq, Prod.mk.injEq]
    omega

/-! ## `recordLine` lemmas -/

theorem recordLine_rev_ne (table : List (Nat × List Char)) (st : Int × Int) (i : Nat)
    (l : List Char) (m : LineMapping) (j : Nat) (hji : ¬ j = i) :
    mget (recordLine table st i l m).asmToSource j = mget m.asmToSource j := by
  unfold recordLine
  by_cases h1 : 0 ≤ st.1 ∧ 0 ≤ st.2
  · rw [if_pos h1]
    cases hp : mget table st.1.toNat with
    | none => rfl
    | some p =>
      dsimp only
      by_cases h2 : isInstrFull l = true
      · rw [if_pos h2]
        exact mget_mset_ne _ _ _ _ hji
      · rw [if_neg h2]
        exact mget_mset_ne _ _ _ _ hji
  · rw [if_neg h1]

theorem recordLine_rev_set (table : List (Nat × List Char)) (st : Int × Int) (i : Nat)
    (l : List Char) (m : LineMapping) (p : List Char)
    (h1 : 0 ≤ st.1) (h2 : 0 ≤ st.2) (hp : mget table st.1.toNat = some p) :
    mget (recordLine table st i l m).asmToSource i = some (normalize p, st.2) := by
  unfold recordLine
  rw [if_pos ⟨h1, h2⟩, hp]
  dsimp only
  by_cases h3 : isInstrFull l = true
  · rw [if_pos h3]
    exact mget_mset_self _ _ _
  · rw [if_neg h3]
    exact mget_mset_self _ _ _

theorem recordLine_rev_none (table : List (Nat × List Char)) (st : Int × Int) (i : Nat)
    (l : List Char) (m : LineMapping)
    (h : ¬ (0 ≤ st.1 ∧ 0 ≤ st.2 ∧ ∃ p, mget table st.1.toNat = some p)) :
    (recordLine table st i l m).asmToSource = m.asmToSource := by
  unfold recordLine
  by_cases h1 : 0 ≤ st.1 ∧ 0 ≤ st.2
  · rw [if_pos h1]
    cases hp : mget table st.1.toNat with
    | none => rfl
    | some p => exact absurd ⟨h1.1, h1.2, p, hp⟩ h
  · rw [if_neg h1]

theorem recordLine_bucket_push (table : List (Nat × List Char)) (st : Int × Int) (i : Nat)
    (l : List Char) (m : LineMapping) (p : List Char)
    (h1 : 0 ≤ st.1) (h2 : 0 ≤ st.2) (hp : mget table st.1.toNat = some p)
    (hl : isInstrFull l = true) :
    bucketOf (recordLine table st i l m) (normalize p, st.2)
      = bucketOf m (normalize p, st.2) ++ [i] := by
  unfold recordLine bucketOf
  rw [if_pos ⟨h1, h2⟩, hp]
  dsimp only
  rw [if_pos hl]
  simp only [mget_mset_self]
  rfl

theorem recordLine_bucket_keep (table : List (Nat × List Char)) (st : Int × Int) (i : Nat)
    (l : List Char) (m : LineMapping) (K : List Char × Int)
    (h : ¬ (0 ≤ st.1 ∧ 0 ≤ st.2 ∧ ∃ p, mget table st.1.toNat = some p ∧
        isInstrFull l = true ∧ K = (normalize p, st.2))) :
    mget (recordLine table st i l m).sourceToAsm K = mget m.sourceToAsm K := by
  unfold recordLine
  by_cases h1 : 0 ≤ st.1 ∧ 0 ≤ st.2
  · rw [if_pos h1]
    cases hp : mget table st.1.toNat with
    | none => rfl
    | some p =>
      dsimp only
      by_cases h3 : isInstrFull l = true
      · have hK : ¬ K = (normalize p, st.2) := fun hk => h ⟨h1.1, h1.2, p, hp, h3, hk⟩
        rw [if_pos h3]
        exact mget_mset_ne _ _ _ _ hK
      · rw [if_neg h3]
  · rw [if_neg h1]

theorem mem_bucket_recordLine (table : List (Nat × List Char)) (st : Int × Int) (i : Nat)
    (l : List Char) (m : LineMapping) (K : List Char × Int) (j : Nat)
    (hj : j ∈ bucketOf (recordLine table st i l m) K) :
    j ∈ bucketOf m K ∨
      (j = i ∧ 0 ≤ st.1 ∧ 0 ≤ st.2 ∧ ∃ p, mget table st.1.toNat = some p ∧
        isInstrFull l = true ∧ K = (normalize p, st.2)) := by
  by_cases h : 0 ≤ st.1 ∧ 0 ≤ st.2 ∧ ∃ p, mget table st.1.toNat = some p ∧
      isInstrFull l = true ∧ K = (normalize p, st.2)
  · obtain ⟨h1, h2, p, hp, h3, hK⟩ := h
    subst hK
    rw [recordLine_bucket_push table st i l m p h1 h2 hp h3] at hj
    rcases List.mem_append.1 hj with hj | hj
    · exact Or.inl hj
    · simp only [List.mem_singleton] at hj
      exact Or.inr ⟨hj, h1, h2, p, hp, h3, rfl⟩
  · unfold bucketOf at hj
    rw [recordLine_bucket_keep table st i l m K h] at hj
    exact Or.inl hj

/-! ## Reverse-map characterization of `buildMapping` -/

theorem recordLine_rev_bound (table : List (Nat × List Char)) (st : Int × Int) (i : Nat)
    (l : List Char) (m : LineMapping) (k : Nat) (v : List Char × Int)
    (hk : mget (recordLine table st i l m).asmToSource k = some v) :
    mget m.asmToSource k = some v ∨ k = i := by
  by_cases hki : k = i
  · exact Or.inr hki
  · rw [recordLine_rev_ne table st i l m k hki] at hk
    exact Or.inl hk

theorem buildLines_rev (table : List (Nat × List Char)) (ls : List (List Char)) :
    ∀ (i : Nat) (st : Int × Int) (m : LineMapping) (j : Nat),
      (∀ k v, mget m.asmToSource k = some v → k < i) →
      mget (buildLines table ls i st m).asmToSource j =
        if j < i then mget m.asmToSource j else revSpec table ls i st j := by
  induction ls with
  | nil =>
    intro i st m j hb
    simp only [buildLines, revSpec]
    by_cases hj : j < i
    · rw [if_pos hj]
    · rw [if_neg hj]
      cases hm : mget m.asmToSource j with
      | none => rfl
      | some v => exact absurd (hb j v hm) hj
  | cons l ls ih =>
    intro i st m j hb
    simp only [buildLines, revSpec]
    have hb2 : ∀ k v,
        mget (recordLine table (locStep st l) i l m).asmToSource k = some v → k < i + 1 := by
      intro k v hk
      rcases recordLine_rev_bound table (locStep st l) i l m k v hk with hk2 | hk2
      · exact Nat.lt_succ_of_lt (hb k v hk2)
      · omega
    rw [ih (i + 1) (locStep st l) _ j hb2]
    by_cases hj1 : j < i
    · rw [if_pos (by omega : j < i + 1), if_pos hj1,
        recordLine_rev_ne table (locStep st l) i l m j (by omega)]
    · rw [if_neg hj1]
      by_cases hj2 : j = i
      · subst hj2
        rw [if_pos (by omega : j < j + 1), if_pos rfl]
        by_cases hc : 0 ≤ (locStep st l).1 ∧ 0 ≤ (locStep st l).2
        · rw [if_pos hc]
          cases hp : mget table (locStep st l).1.toNat with
          | none =>
            have hrec := recordLine_rev_none table (locStep st l) j l m
              (by rintro ⟨_, _, p, hp2⟩; rw [hp] at hp2; cases hp2)
            rw [hrec]
            cases hm : mget m.asmToSource j with
            | none => rfl
            | some v => exact absurd (hb j v hm) (by omega)
          | some p => exact recordLine_rev_set table (locStep st l) j l m p hc.1 hc.2 hp
        · rw [if_neg hc]
          have hrec := recordLine_rev_none table (locStep st l) j l m
            (by rintro ⟨hc1, hc2, _⟩; exact hc ⟨hc1, hc2⟩)
          rw [hrec]
          cases hm : mget m.asmToSource j with
          | none => rfl
          | some v => exact absurd (hb j v hm) (by omega)
      · rw [if_neg (by omega : ¬ j < i + 1), if_neg hj2]

theorem revSpec_out (table : List (Nat × List Char)) (ls : List (List Char)) :
    ∀ (i : Nat) (st : Int × Int) (j : Nat), i + ls.length ≤ j →
      revSpec table ls i st j = none := by
  induction ls with
  | nil => intro i st j h; rfl
  | cons l ls ih =>
    intro i st j h
    simp only [revSpec]
    rw [if_neg (by simp only [List.length_cons] at h; omega)]
    exact ih (i + 1) _ j (by simp only [List.length_cons] at h; omega)

theorem revSpec_bridge (table : List (Nat × List Char)) (ls : List (List Char)) :
    ∀ (i j : Nat) (r : Option (Nat × Nat)), i ≤ j → j < i + ls.length →
      revSpec table ls i (bmSt r) j = stF table (rawState (ls.take (j + 1 - i)) r) := by
  induction ls with
  | nil => intro i j r h1 h2; simp only [List.length_nil] at h2; omega
  | cons l ls ih =>
    intro i j r h1 h2
    simp only [revSpec, locStep_bmSt]
    by_cases hj : j = i
    · subst hj
      rw [if_pos rfl]
      have ht : j + 1 - j = 1 := by omega
      rw [ht, List.take_succ_cons, List.take_zero, rawState_cons]
      cases hr : rawStep r l with
      | none =>
        simp only [bmSt, stF, rawState, List.foldl_nil]
        rw [if_neg (by omega)]
      | some fl =>
        rcases fl with ⟨f, L⟩
        simp only [bmSt, stF, rawState, List.foldl_nil]
        by_cases hL : 1 ≤ L
        · rw [if_pos ⟨by omega, by omega⟩, if_pos hL]
          have htn : ((f : Int)).toNat = f := Int.toNat_natCast f
          rw [htn]
        · rw [if_neg (by omega), if_neg hL]
    · rw [if_neg hj]
      have ht : j + 1 - i = (j - i) + 1 := by omega
      rw [ht, List.take_succ_cons, rawState_cons]
      have ht2 : j - i = j + 1 - (i + 1) := by omega
      rw [ht2]
      exact ih (i + 1) j (rawStep r l) (by omega)
        (by simp only [List.length_cons] at h2; omega)

/-- Reverse-map entry of the built mapping, via the raw `.loc` state at the
index. -/
theorem rev_of_raw (content : List Char) (table : List (Nat × List Char))
    (i f L : Nat) (p : List Char)
    (hi : i < (splitLines content).length)
    (hr : rawStateAt (splitLines content) i = some (f, L))
    (hL : 1 ≤ L) (hp : mget table f = some p) :
    mget (buildMapping content table).asmToSource i = some (normalize p, (L : Int) - 1) := by
  unfold buildMapping
  rw [buildLines_rev table _ 0 _ _ i (by intro k v hk; simp [mget] at hk)]
  rw [if_neg (by omega)]
  rw [show ((-1 : Int), (-1 : Int)) = bmSt none from rfl]
  rw [revSpec_bridge table _ 0 i none (by omega) (by omega)]
  rw [show i + 1 - 0 = i + 1 from by omega]
  unfold rawStateAt at hr
  rw [hr]
  simp only [stF]
  rw [if_pos hL, hp]

/-- Reverse-map entry is `none` whenever no `.loc` directive is in effect. -/
theorem rev_of_raw_none (content : List Char) (table : List (Nat × List Char)) (i : Nat)
    (hr : rawStateAt (splitLines content) i = none) :
    mget (buildMapping content table).asmToSource i = none := by
  unfold buildMapping
  rw [buildLines_rev table _ 0 _ _ i (by intro k v hk; simp [mget] at hk)]
  rw [if_neg (by omega)]
  by_cases hi : i < (splitLines content).length
  · rw [show ((-1 : Int), (-1 : Int)) = bmSt none from rfl]
    rw [revSpec_bridge table _ 0 i none (by omega) (by omega)]
    rw [show i + 1 - 0 = i + 1 from by omega]
    unfold rawStateAt at hr
    rw [hr]
    rfl
  · exact revSpec_out table _ 0 _ i (by omega)

/-! ## Forward-bucket membership -/

theorem mem_bucket_build (table : List (Nat × List Char)) (ls : List (List Char)) :
    ∀ (i : Nat) (r : Option (Nat × Nat)) (m : LineMapping) (q : List Char) (v : Int) (j : Nat),
      j ∈ bucketOf (buildLines table ls i (bmSt r) m) (q, v) →
      j ∈ bucketOf m (q, v) ∨
        ∃ d, d < ls.length ∧ j = i + d ∧ isInstrFull (ls.getD d []) = true ∧
          ∃ f L p, rawState (ls.take (d + 1)) r = some (f, L) ∧ 1 ≤ L ∧
            mget table f = some p ∧ q = normalize p ∧ v = (L : Int) - 1 := by
  induction ls with
  | nil => intro i r m q v j hj; exact Or.inl hj
  | cons l ls ih =>
    intro i r m q v j hj
    simp only [buildLines, locStep_bmSt] at hj
    rcases ih (i + 1) (rawStep r l) _ q v j hj with
      hj2 | ⟨d, hd, hji, hinstr, f, L, p, hraw, hL, hp, hq, hv⟩
    · rcases mem_bucket_recordLine table (bmSt (rawStep r l)) i l m (q, v) j hj2 with
        hm | ⟨hji, h1, h2, p, hp, h3, hK⟩
      · exact Or.inl hm
      · right
        cases hr : rawStep r l with
        | none =>
          rw [hr] at h2
          simp only [bmSt] at h2
          omega
        | some fl =>
          rcases fl with ⟨f, L⟩
          rw [hr] at h1 h2 hp hK
          simp only [bmSt] at h1 h2 hp hK
          rw [Int.toNat_natCast] at hp
          rw [Prod.mk.injEq] at hK
          refine ⟨0, by simp, by omega, by simpa using h3, f, L, p, ?_, by omega, hp,
            hK.1, hK.2⟩
          rw [List.take_succ_cons, List.take_zero, rawState_cons]
          simp only [rawState, List.foldl_nil, hr]
    · right
      refine ⟨d + 1, by simp only [List.length_cons]; omega, by omega, by simpa using hinstr,
        f, L, p, ?_, hL, hp, hq, hv⟩
      rw [List.take_succ_cons, rawState_cons]
      exact hraw

/-! ## Agreement of the resolver loop with the mapping builder -/

theorem isInstrFull_eq (l : List Char) :
    isInstrFull l = (isInstrBasic l && !(isLabelCl (trimCl l))) := by
  unfold isInstrFull isInstrBasic
  simp only [Bool.and_assoc]

theorem build_find_agree (table : List (Nat × List Char)) (f L : Nat) (p : List Char)
    (hp : mget table f = some p) (hL : 1 ≤ L)
    (inj : ∀ f2 p2, mget table f2 = some p2 → normalize p2 = normalize p → f2 = f)
    (ls : List (List Char)) :
    ∀ (i : Nat) (r : Option (Nat × Nat)) (m : LineMapping) (acc : List Nat),
      (∀ x ∈ ls, isLabelCl (trimCl x) = false) →
      bucketOf m (normalize p, (L : Int) - 1) = acc →
      bucketOf (buildLines table ls i (bmSt r) m) (normalize p, (L : Int) - 1) =
        findLines f L ls i (faSt r) acc := by
  induction ls with
  | nil =>
    intro i r m acc _ hacc
    simpa [buildLines, findLines] using hacc
  | cons l ls ih =>
    intro i r m acc hlab hacc
    simp only [buildLines, findLines, locStep_bmSt, locStepRaw_faSt]
    have hlab2 : ∀ x ∈ ls, isLabelCl (trimCl x) = false :=
      fun x hx => hlab x (List.mem_cons_of_mem _ hx)
    by_cases hpush : (faSt (rawStep r l)).1 = (f : Int) ∧
        (faSt (rawStep r l)).2 = (L : Int) ∧ isInstrBasic l = true
    · have hr : rawStep r l = some (f, L) := (faSt_eq_iff _ f L).1 ⟨hpush.1, hpush.2.1⟩
      have hfull : isInstrFull l = true := by
        rw [isInstrFull_eq, hpush.2.2, hlab l (List.mem_cons_self _ _)]
        rfl
      rw [if_pos hpush]
      have h1 : (0 : Int) ≤ (bmSt (some (f, L))).1 := by simp [bmSt]
      have h2 : (0 : Int) ≤ (bmSt (some (f, L))).2 := by simp only [bmSt]; omega
      have h3 : mget table (bmSt (some (f, L))).1.toNat = some p := by
        simp only [bmSt, Int.toNat_natCast]
        exact hp
      have hacc2 : bucketOf (recordLine table (bmSt (rawStep r l)) i l m)
          (normalize p, (L : Int) - 1) = acc ++ [i] := by
        rw [hr]
        have hpush2 := recordLine_bucket_push table (bmSt (some (f, L))) i l m p h1 h2 h3 hfull
        simp only [bmSt] at hpush2 ⊢
        rw [hpush2, hacc]
      exact ih (i + 1) (rawStep r l) _ (acc ++ [i]) hlab2 hacc2
    · rw [if_neg hpush]
      have hkeep : mget (recordLine table (bmSt (rawStep r l)) i l m).sourceToAsm
          (normalize p, (L : Int) - 1) = mget m.sourceToAsm (normalize p, (L : Int) - 1) := by
        apply recordLine_bucket_keep
        rintro ⟨h1, h2, p2, hp2, hfull2, hK⟩
        cases hr2 : rawStep r l with
        | none =>
          rw [hr2] at h2
          simp only [bmSt] at h2
          omega
        | some fl =>
          rcases fl with ⟨f2, L2⟩
          rw [hr2] at h1 h2 hp2 hK
          simp only [bmSt] at h1 h2 hp2 hK
          rw [Int.toNat_natCast] at hp2
          rw [Prod.mk.injEq] at hK
          have hf2 : f2 = f := inj f2 p2 hp2 hK.1.symm
          have hL2 : L2 = L := by omega
          have hbasic : isInstrBasic l = true := by
            rw [isInstrFull_eq, Bool.and_eq_true] at hfull2
            exact hfull2.1
          exact hpush ⟨by rw [hr2]; simp only [faSt]; omega,
            by rw [hr2]; simp only [faSt]; omega, hbasic⟩
      have hacc2 : bucketOf (recordLine table (bmSt (rawStep r l)) i l m)
          (normalize p, (L : Int) - 1) = acc := by
        unfold bucketOf
        rw [hkeep]
        exact hacc
      exact ih (i + 1) (rawStep r l) _ acc hlab2 hacc2

/-! ## File-table extraction: last-write-wins characterization -/

theorem extractFilesGo_mget (v1 : List Char → List Char → List Char)
    (v2 : List Char → List Char) (ls : List (List Char)) :
    ∀ (t : List (Nat × List Char)) (id : Nat),
      mget (extractFilesGo v1 v2 ls t) id
        = lastVal id (ls.filterMap (fileEntryOf v1 v2)) (mget t id) := by
  induction ls with
  | nil => intro t id; rfl
  | cons l ls ih =>
    intro t id
    cases h1 : file1Match l with
    | some r =>
      rcases r with ⟨k, d, fz⟩
      have hF : fileEntryOf v1 v2 l = some (k, v1 d fz) := by
        unfold fileEntryOf
        rw [h1]
      simp only [extractFilesGo, h1]
      rw [ih]
      simp only [List.filterMap_cons, hF, lastVal]
      congr 1
      by_cases hk : k = id
      · subst hk
        rw [if_pos rfl]
        exact mget_mset_self t k _
      · rw [if_neg hk, mget_mset_ne t k id _ fun hh => hk hh.symm]
    | none =>
      cases h2 : file2Match l with
      | some r =>
        rcases r with ⟨k, q⟩
        have hF : fileEntryOf v1 v2 l = some (k, v2 q) := by
          unfold fileEntryOf
          rw [h1, h2]
        simp only [extractFilesGo, h1, h2]
        rw [ih]
        simp only [List.filterMap_cons, hF, lastVal]
        congr 1
        by_cases hk : k = id
        · subst hk
          rw [if_pos rfl]
          exact mget_mset_self t k _
        · rw [if_neg hk, mget_mset_ne t k id _ fun hh => hk hh.symm]
      | none =>
        have hF : fileEntryOf v1 v2 l = none := by
          unfold fileEntryOf
          rw [h1, h2]
        simp only [extractFilesGo, h1, h2]
        rw [ih]
        simp only [List.filterMap_cons, hF]

/-! ## Kernel-region geometry -/

theorem idxWhere_mem_ge (p : List Char → Bool) (ls : List (List Char)) :
    ∀ (i0 x : Nat), x ∈ idxWhere p ls i0 → i0 ≤ x := by
  induction ls with
  | nil => intro i0 x h; simp [idxWhere] at h
  | cons l ls ih =>
    intro i0 x h
    simp only [idxWhere] at h
    by_cases hp : p l = true
    · rw [if_pos hp] at h
      rcases List.mem_cons.1 h with h | h
      · omega
      · have := ih (i0 + 1) x h
        omega
    · rw [if_neg hp] at h
      have := ih (i0 + 1) x h
      omega

theorem idxWhere_mem_lt (p : List Char → Bool) (ls : List (List Char)) :
    ∀ (i0 x : Nat), x ∈ idxWhere p ls i0 → x < i0 + ls.length := by
  induction ls with
  | nil => intro i0 x h; simp [idxWhere] at h
  | cons l ls ih =>
    intro i0 x h
    simp only [idxWhere] at h
    simp only [List.length_cons]
    by_cases hp : p l = true
    · rw [if_pos hp] at h
      rcases List.mem_cons.1 h with h | h
      · omega
      · have := ih (i0 + 1) x h
        omega
    · rw [if_neg hp] at h
      have := ih (i0 + 1) x h
      omega

theorem idxWhere_sorted (p : List Char → Bool) (ls : List (List Char)) :
    ∀ (i0 : Nat), List.Pairwise (fun a b => a < b) (idxWhere p ls i0) := by
  induction ls with
  | nil => intro i0; simp [idxWhere]
  | cons l ls ih =>
    intro i0
    simp only [idxWhere]
    by_cases hp : p l = true
    · rw [if_pos hp]
      refine List.Pairwise.cons ?_ (ih (i0 + 1))
      intro b hb
      have := idxWhere_mem_ge p ls (i0 + 1) b hb
      omega
    · rw [if_neg hp]
      exact ih (i0 + 1)

theorem regionsOf_fst (bs : List Nat) (n : Nat) :
    (regionsOf bs n).map Prod.fst = bs := by
  induction bs with
  | nil => rfl
  | cons b rest ih =>
    cases rest with
    | nil => rfl
    | cons b2 t =>
      simp only [regionsOf, List.map_cons] at ih ⊢
      rw [ih]

theorem regionsOf_mem_fst {bs : List Nat} {n : Nat} {r : Nat × Nat}
    (hr : r ∈ regionsOf bs n) : r.1 ∈ bs := by
  have h := regionsOf_fst bs n
  exact h ▸ List.mem_map_of_mem Prod.fst hr

theorem sorted_head_le {b2 : Nat} {t : List Nat}
    (hs : List.Pairwise (fun a b => a < b) (b2 :: t)) :
    ∀ x ∈ b2 :: t, b2 ≤ x := by
  intro x hx
  rcases List.mem_cons.1 hx with h | h
  · omega
  · have := (List.pairwise_cons.1 hs).1 x h
    omega

theorem regionsOf_wf (bs : List Nat) (n : Nat) :
    List.Pairwise (fun a b => a < b) bs → (∀ b ∈ bs, b < n) →
    ∀ r ∈ regionsOf bs n, r.1 ≤ r.2 := by
  induction bs with
  | nil => intro _ _ r hr; simp [regionsOf] at hr
  | cons b rest ih =>
    intro hs hn r hr
    cases rest with
    | nil =>
      simp only [regionsOf, List.mem_singleton] at hr
      subst hr
      have hb : b < n := hn b (List.mem_cons_self _ _)
      simp only
      omega
    | cons b2 t =>
      simp only [regionsOf, List.mem_cons] at hr
      rcases hr with hr | hr
      · subst hr
        have hb : b < b2 := (List.pairwise_cons.1 hs).1 b2 (List.mem_cons_self _ _)
        simp only
        omega
      · exact ih (List.pairwise_cons.1 hs).2
          (fun x hx => hn x (List.mem_cons_of_mem _ hx)) r hr

theorem regionsOf_disjoint (bs : List Nat) (n : Nat) :
    List.Pairwise (fun a b => a < b) bs →
    List.Pairwise (fun r r2 => r.2 < r2.1) (regionsOf bs n) := by
  induction bs with
  | nil => intro _; exact List.Pairwise.nil
  | cons b rest ih =>
    intro hs
    cases rest with
    | nil => simp [regionsOf]
    | cons b2 t =>
      simp only [regionsOf]
      refine List.Pairwise.cons ?_ (ih (List.pairwise_cons.1 hs).2)
      intro r hr
      have h1 : r.1 ∈ b2 :: t := regionsOf_mem_fst hr
      have hb : b < b2 := (List.pairwise_cons.1 hs).1 b2 (List.mem_cons_self _ _)
      have h2 := sorted_head_le (List.pairwise_cons.1 hs).2 r.1 h1
      simp only
      omega

theorem regionsOf_head (bs : List Nat) (n : Nat) :
    (regionsOf bs n).head?.map Prod.fst = bs.head? := by
  cases bs with
  | nil => rfl
  | cons b rest =>
    cases rest with
    | nil => rfl
    | cons b2 t => rfl

theorem regionsOf_ne_nil (b : Nat) (rest : List Nat) (n : Nat) :
    ¬ regionsOf (b :: rest) n = [] := by
  cases rest with
  | nil => simp [regionsOf]
  | cons b2 t => simp [regionsOf]

theorem regionsOf_last (bs : List Nat) (n : Nat) (h : ¬ bs = []) :
    (regionsOf bs n).getLast?.map Prod.snd = some (n - 1) := by
  induction bs with
  | nil => exact absurd rfl h
  | cons b rest ih =>
    cases rest with
    | nil => rfl
    | cons b2 t =>
      have ih2 := ih (by simp)
      have heq : regionsOf (b :: b2 :: t) n = (b, b2 - 1) :: regionsOf (b2 :: t) n := rfl
      rw [heq]
      cases hX : regionsOf (b2 :: t) n with
      | nil => exact absurd hX (regionsOf_ne_nil b2 t n)
      | cons x xs =>
        rw [List.getLast?_cons_cons]
        rw [hX] at ih2
        exact ih2

theorem regionsOf_chain (bs : List Nat) (n : Nat) :
    List.Pairwise (fun a b => a < b) bs →
    List.Chain' (fun r r2 => r2.1 = r.2 + 1) (regionsOf bs n) := by
  induction bs with
  | nil => intro _; simp [regionsOf]
  | cons b rest ih =>
    intro hs
    cases rest with
    | nil => simp [regionsOf]
    | cons b2 t =>
      have heq : regionsOf (b :: b2 :: t) n = (b, b2 - 1) :: regionsOf (b2 :: t) n := rfl
      rw [heq]
      refine List.chain'_cons'.2 ⟨?_, ih (List.pairwise_cons.1 hs).2⟩
      intro y hy
      have hh := regionsOf_head (b2 :: t) n
      rw [Option.mem_def] at hy
      rw [hy] at hh
      simp only [Option.map_some', List.head?_cons, Option.some.injEq] at hh
      have hb : b < b2 := (List.pairwise_cons.1 hs).1 b2 (List.mem_cons_self _ _)
      simp only
      omega

theorem kernels_proj_sublist (lines : List (List Char)) (rs : List (Nat × Nat)) :
    ((rs.filterMap fun r => (searchSym lines r.1 r.2).map fun sym =>
        (⟨sym, r.1, r.2⟩ : Kernel)).map fun k => (k.startLine, k.endLine)).Sublist rs := by
  induction rs with
  | nil => simp
  | cons r rs ih =>
    simp only [List.filterMap_cons]
    cases h : searchSym lines r.1 r.2 with
    | none => exact ih.trans (List.sublist_cons_self r rs)
    | some sy =>
      simp only [Option.map_some', List.map_cons]
      rw [Prod.mk.eta]
      exact List.Sublist.cons₂ r ih

theorem kernels_proj_eq (lines : List (List Char)) (rs : List (Nat × Nat))
    (h : ∀ r ∈ rs, ¬ searchSym lines r.1 r.2 = none) :
    ((rs.filterMap fun r => (searchSym lines r.1 r.2).map fun sym =>
        (⟨sym, r.1, r.2⟩ : Kernel)).map fun k => (k.startLine, k.endLine)) = rs := by
  induction rs with
  | nil => rfl
  | cons r rs ih =>
    simp only [List.filterMap_cons]
    cases hs : searchSym lines r.1 r.2 with
    | none => exact absurd hs (h r (List.mem_cons_self _ _))
    | some sy =>
      simp only [Option.map_some', List.map_cons]
      rw [ih fun x hx => h x (List.mem_cons_of_mem _ hx), Prod.mk.eta]

/-! ## Diff alignment -/

theorem getD_map_range {α : Type} (n : Nat) (f : Nat → α) (j : Nat) (d : α) (h : j < n) :
    ((List.range n).map f).getD j d = f j := by
  rw [List.getD_eq_getElem?_getD, List.getElem?_map, List.getElem?_range h]
  rfl

theorem diffAlign_pad (la lb : List (List Char)) (h : la.length ≤ lb.length) :
    (diffAlign la lb).length = lb.length ∧
    (∀ j, j < lb.length →
      ((diffAlign la lb).getD j ([], [], false)).2.2
        = decide (¬ la.getD j [] = lb.getD j [])) ∧
    (∀ j, la.length ≤ j → j < lb.length →
      (((diffAlign la lb).getD j ([], [], false)).2.2 = true ↔ ¬ lb.getD j [] = [])) := by
  have hmax : max la.length lb.length = lb.length := Nat.max_eq_right h
  refine ⟨?_, ?_, ?_⟩
  · simp [diffAlign, hmax]
  · intro j hj
    unfold diffAlign
    rw [hmax, getD_map_range _ _ j _ hj]
  · intro j h1 h2
    unfold diffAlign
    rw [hmax, getD_map_range _ _ j _ h2]
    rw [List.getD_eq_default _ _ h1]
    simp only [decide_eq_true_eq]
    constructor
    · intro hne hemp
      exact hne hemp.symm
    · intro hne hemp
      exact hne hemp.symm

/-! ## Staleness sorting -/

theorem insertDesc_mem (mt : List Char → Nat) (x : MatchRec) (l : List MatchRec)
    (z : MatchRec) : z ∈ insertDesc mt x l ↔ z = x ∨ z ∈ l := by
  induction l with
  | nil => simp [insertDesc]
  | cons y ys ih =>
    unfold insertDesc
    by_cases hc : mt y.assemblyFile < mt x.assemblyFile
    · rw [if_pos hc]
      simp only [List.mem_cons]
    · rw [if_neg hc]
      simp only [List.mem_cons, ih]
      tauto

theorem foldl_insertDesc_mem (mt : List Char → Nat) (l : List MatchRec) :
    ∀ (acc : List MatchRec) (z : MatchRec),
      z ∈ l.foldl (fun a x => insertDesc mt x a) acc ↔ z ∈ acc ∨ z ∈ l := by
  induction l with
  | nil => intro acc z; simp
  | cons x xs ih =>
    intro acc z
    simp only [List.foldl_cons]
    rw [ih (insertDesc mt x acc) z, insertDesc_mem]
    simp only [List.mem_cons]
    tauto

theorem sortDesc_mem (mt : List Char → Nat) (l : List MatchRec) (z : MatchRec) :
    z ∈ sortDesc mt l ↔ z ∈ l := by
  unfold sortDesc
  rw [foldl_insertDesc_mem]
  simp

theorem insertDesc_sorted (mt : List Char → Nat) (x : MatchRec) (l : List MatchRec)
    (h : List.Pairwise (fun a b => mt b.assemblyFile ≤ mt a.assemblyFile) l) :
    List.Pairwise (fun a b => mt b.assemblyFile ≤ mt a.assemblyFile)
      (insertDesc mt x l) := by
  induction l with
  | nil => simp [insertDesc]
  | cons y ys ih =>
    unfold insertDesc
    rcases List.pairwise_cons.1 h with ⟨hy, hys⟩
    by_cases hc : mt y.assemblyFile < mt x.assemblyFile
    · rw [if_pos hc]
      refine List.Pairwise.cons ?_ h
      intro z hz
      rcases List.mem_cons.1 hz with hz | hz
      · subst hz; omega
      · have := hy z hz
        omega
    · rw [if_neg hc]
      refine List.Pairwise.cons ?_ (ih hys)
      intro z hz
      rw [insertDesc_mem] at hz
      rcases hz with hz | hz
      · subst hz; omega
      · exact hy z hz

theorem foldl_insertDesc_sorted (mt : List Char → Nat) (l : List MatchRec) :
    ∀ acc, List.Pairwise (fun a b => mt b.assemblyFile ≤ mt a.assemblyFile) acc →
      List.Pairwise (fun a b => mt b.assemblyFile ≤ mt a.assemblyFile)
        (l.foldl (fun a x => insertDesc mt x a) acc) := by
  induction l with
  | nil => intro acc h; exact h
  | cons x xs ih => intro acc h; exact ih _ (insertDesc_sorted mt x acc h)

theorem sortDesc_sorted (mt : List Char → Nat) (l : List MatchRec) :
    List.Pairwise (fun a b => mt b.assemblyFile ≤ mt a.assemblyFile) (sortDesc mt l) :=
  foldl_insertDesc_sorted mt l [] List.Pairwise.nil

/-! ## Scanner robustness -/

theorem scanEntries_skip_readfail (tag n c : List Char) (l1 l2 : List FSEntry) :
    ∀ p, scanEntries tag p (l1 ++ FSEntry.file n true false c :: l2)
      = scanEntries tag p (l1 ++ l2) := by
  induction l1 with
  | nil =>
    intro p
    simp only [List.nil_append, scanEntries]
    cases hg : isGCNAssembly n <;> simp [hg]
  | cons e l1 ih =>
    intro p
    cases e with
    | file n2 s2 r2 c2 =>
      simp only [List.cons_append, scanEntries]
      cases s2 with
      | false => simp
      | true => simp only [if_true]; rw [ih p]
    | dir n2 s2 r2 ents =>
      simp only [List.cons_append, scanEntries]
      cases s2 with
      | false => simp
      | true => simp only [if_true]; rw [ih p]

theorem scanEntries_congr_dir (tag n : List Char) (sOk rOk : Bool)
    (ents ents' : List FSEntry)
    (h : ∀ p, scanEntries tag p ents = scanEntries tag p ents') (l1 l2 : List FSEntry) :
    ∀ p, scanEntries tag p (l1 ++ FSEntry.dir n sOk rOk ents :: l2)
      = scanEntries tag p (l1 ++ FSEntry.dir n sOk rOk ents' :: l2) := by
  induction l1 with
  | nil =>
    intro p
    simp only [List.nil_append, scanEntries]
    cases sOk with
    | false => simp
    | true =>
      cases rOk with
      | false => simp
      | true => simp only [if_true]; rw [h (join2 p n)]
  | cons e l1 ih =>
    intro p
    cases e with
    | file n2 s2 r2 c2 =>
      simp only [List.cons_append, scanEntries]
      cases s2 with
      | false => simp
      | true => simp only [if_true]; rw [ih p]
    | dir n2 s2 r2 ents2 =>
      simp only [List.cons_append, scanEntries]
      cases s2 with
      | false => simp
      | true => simp only [if_true]; rw [ih p]

theorem scanEntries_removedRead (tag : List Char) (es es' : List FSEntry)
    (h : RemovedRead es es') :
    ∀ p, scanEntries tag p es = scanEntries tag p es' := by
  induction h with
  | here l1 l2 n c => exact scanEntries_skip_readfail tag n c l1 l2
  | inDir l1 l2 n sOk rOk ents ents' _ ih =>
    exact scanEntries_congr_dir tag n sOk rOk ents ents' ih l1 l2

theorem findAssemblyFiles_missing_root (ws : List Char)
    (l1 l2 : List (List Char × Option FSEntry)) (name : List Char) :
    findAssemblyFiles ws (l1 ++ (name, none) :: l2) = findAssemblyFiles ws (l1 ++ l2) := by
  induction l1 with
  | nil => simp [findAssemblyFiles, scanRoot]
  | cons r l1 ih =>
    simp only [List.cons_append, findAssemblyFiles, List.append_eq]
    rw [ih]

/-! ## Claim theorems -/

/-- C1, counterexample: the resolver's `findAssemblyLinesForSourceLine` and the
forward lookup of `buildMapping`/`getAssemblyLines` disagree at the same
queried line, because the resolver keeps `.loc` lines 1-indexed while the
mapping stores them 0-indexed: for `.loc 1 10 2` followed by one instruction,
the resolver at line 10 returns the instruction but the forward lookup at
line 10 is empty. -/
theorem c1_counterexample :
    ¬ findAssemblyLinesForSourceLine ((".loc 1 10 2\n\tv_mov_b32 v0, v1").data) 1 10
        = getAssemblyLines
            (buildMapping ((".loc 1 10 2\n\tv_mov_b32 v0, v1").data) [(1, ("a.hip").data)])
            (("a.hip").data) 10 := by
  decide

/-- C1 (amended): for a matched file-id `f` resolving to `p` and a queried
line `L > 0`, provided no other table entry normalizes to the same path and
the buffer contains no bare-label lines, the resolver's asmLines equal the
forward bucket looked up at the 0-indexed line `L - 1`. -/
theorem c1_amended (content : List Char) (table : List (Nat × List Char))
    (f L : Nat) (p : List Char) (hL : 1 ≤ L) (hp : mget table f = some p)
    (inj : ∀ e ∈ table, normalize e.2 = normalize p → e.1 = f)
    (hlab : ∀ x ∈ splitLines content, isLabelCl (trimCl x) = false) :
    findAssemblyLinesForSourceLine content f L
      = getAssemblyLines (buildMapping content table) p ((L : Int) - 1) := by
  have inj2 : ∀ f2 p2, mget table f2 = some p2 → normalize p2 = normalize p → f2 = f :=
    fun f2 p2 hg hn => inj (f2, p2) (mget_mem table f2 p2 hg) hn
  have hmain := build_find_agree table f L p hp hL inj2 (splitLines content) 0 none
    ⟨[], []⟩ [] hlab (by rfl)
  exact hmain.symm

/-- C1, witness: the amended equation evaluated on a concrete buffer. -/
theorem c1_witness :
    findAssemblyLinesForSourceLine ((".loc 1 10 2\n\tv_mov_b32 v0, v1").data) 1 10
      = getAssemblyLines
          (buildMapping ((".loc 1 10 2\n\tv_mov_b32 v0, v1").data) [(1, ("a.hip").data)])
          (("a.hip").data) ((10 : Int) - 1) :=
  c1_amended ((".loc 1 10 2\n\tv_mov_b32 v0, v1").data) [(1, ("a.hip").data)] 1 10
    (("a.hip").data) (by decide) (by decide) (by decide) (by decide)

/-- C2, counterexample: on the spec's buffer `.loc 1 10 1`, two instructions,
`.loc 1 11 1`, one instruction, the forward lookups at the written lines 10
and 11 do not return the first two and the third instruction index: the
buckets are keyed by the 0-indexed lines 9 and 10. -/
theorem c2_counterexample :
    ¬ (getAssemblyLines
        (buildMapping
          ((".loc 1 10 1\n\tv_add_f32 v0, v1, v2\n\tv_mul_f32 v3, v4, v5\n.loc 1 11 1\n\ts_endpgm").data)
          [(1, ("a.hip").data)]) (("a.hip").data) 10 = [1, 2] ∧
      getAssemblyLines
        (buildMapping
          ((".loc 1 10 1\n\tv_add_f32 v0, v1, v2\n\tv_mul_f32 v3, v4, v5\n.loc 1 11 1\n\ts_endpgm").data)
          [(1, ("a.hip").data)]) (("a.hip").data) 11 = [4]) := by
  decide

/-- C2 (amended): on that buffer the location directive stores the line
0-indexed, so the forward lookup at line 9 returns exactly the first two
instruction indices in order and the lookup at line 10 returns the third. -/
theorem c2_amended :
    getAssemblyLines
      (buildMapping
        ((".loc 1 10 1\n\tv_add_f32 v0, v1, v2\n\tv_mul_f32 v3, v4, v5\n.loc 1 11 1\n\ts_endpgm").data)
        [(1, ("a.hip").data)]) (("a.hip").data) 9 = [1, 2] ∧
    getAssemblyLines
      (buildMapping
        ((".loc 1 10 1\n\tv_add_f32 v0, v1, v2\n\tv_mul_f32 v3, v4, v5\n.loc 1 11 1\n\ts_endpgm").data)
        [(1, ("a.hip").data)]) (("a.hip").data) 10 = [4] := by
  decide

/-- Components of the instruction filter of `buildMapping`. -/
theorem isInstrFull_components (l : List Char) (h : isInstrFull l = true) :
    ¬ trimCl l = [] ∧ ['.'].isPrefixOf (trimCl l) = false ∧
    [';'].isPrefixOf (trimCl l) = false ∧ ['/', '/'].isPrefixOf (trimCl l) = false ∧
    isLabelCl (trimCl l) = false := by
  rw [isInstrFull_eq, Bool.and_eq_true] at h
  obtain ⟨hbasic, hlab⟩ := h
  rw [Bool.not_eq_true'] at hlab
  unfold isInstrBasic at hbasic
  simp only [Bool.and_eq_true, Bool.not_eq_true'] at hbasic
  obtain ⟨⟨⟨h1, h2⟩, h3⟩, h4⟩ := hbasic
  refine ⟨?_, h2, h3, h4, hlab⟩
  intro hemp
  rw [hemp] at h1
  simp at h1

/-- C3, counterexample: a line whose trimmed text begins with `#` is not
filtered by `buildMapping` (only `;` and `//` are treated as comments), so
its index does appear in a forward bucket. -/
theorem c3_counterexample :
    1 ∈ (mget (buildMapping ((".loc 1 5 1\n# note").data)
        [(1, ("a").data)]).sourceToAsm ((("a").data), 4)).getD [] ∧
    ['#'].isPrefixOf (trimCl ((splitLines ((".loc 1 5 1\n# note").data)).getD 1 [])) = true := by
  decide

/-- C3 (amended): no line whose trimmed text is empty, begins with `.`,
begins with `;` or `//`, or is a bare label (ends in `:` with no embedded
space) ever has its index in any forward bucket of `buildMapping`; lines
beginning with `#` are not excluded. -/
theorem c3_amended (content : List Char) (table : List (Nat × List Char))
    (q : List Char) (v : Int) (j : Nat)
    (hj : j ∈ (mget (buildMapping content table).sourceToAsm (q, v)).getD []) :
    ¬ trimCl ((splitLines content).getD j []) = [] ∧
    ['.'].isPrefixOf (trimCl ((splitLines content).getD j [])) = false ∧
    [';'].isPrefixOf (trimCl ((splitLines content).getD j [])) = false ∧
    ['/', '/'].isPrefixOf (trimCl ((splitLines content).getD j [])) = false ∧
    isLabelCl (trimCl ((splitLines content).getD j [])) = false := by
  have hj2 : j ∈ bucketOf
      (buildLines table (splitLines content) 0 (bmSt none) ⟨[], []⟩) (q, v) := hj
  rcases mem_bucket_build table (splitLines content) 0 none ⟨[], []⟩ q v j hj2 with
    h | ⟨d, hd, hji, hinstr, _⟩
  · simp [bucketOf, mget] at h
  · have hj3 : isInstrFull ((splitLines content).getD j []) = true := by
      rw [show j = d from by omega]
      exact hinstr
    exact isInstrFull_components _ hj3

/-- C3, witness: the amended exclusion evaluated at a concrete bucket
member. -/
theorem c3_witness :
    ¬ trimCl ((splitLines ((".loc 1 5 1\n v_add v0, v1").data)).getD 1 []) = [] ∧
    ['.'].isPrefixOf (trimCl ((splitLines ((".loc 1 5 1\n v_add v0, v1").data)).getD 1 [])) = false ∧
    [';'].isPrefixOf (trimCl ((splitLines ((".loc 1 5 1\n v_add v0, v1").data)).getD 1 [])) = false ∧
    ['/', '/'].isPrefixOf (trimCl ((splitLines ((".loc 1 5 1\n v_add v0, v1").data)).getD 1 [])) = false ∧
    isLabelCl (trimCl ((splitLines ((".loc 1 5 1\n v_add v0, v1").data)).getD 1 [])) = false :=
  c3_amended ((".loc 1 5 1\n v_add v0, v1").data) [(1, ("a").data)] (("a").data) 4 1 (by decide)

/-- C4, counterexample: the viewer's `extractSourceFilesFromAssembly` stores
the one-argument `.file` path verbatim, not normalized: `a//b` is stored as
written although its normalization is `a/b`. -/
theorem c4_counterexample :
    mget (extractSourceFilesFromAssembly ((".file 1 \"a//b\"").data)) 1
        = some (("a//b").data) ∧
    ¬ (("a//b").data) = normalize (("a//b").data) := by
  decide

/-- C4 (amended): in both extractors a later `.file` directive with the same
id overwrites an earlier one — the table value is the last matching
directive's stored path.  In `HipCompiler.extractSourceFiles` the stored path
is the normalized join of directory and filename (two-argument form) or the
normalized declared path (one-argument form); in
`AssemblyViewerPanel.extractSourceFilesFromAssembly` the two-argument form
stores the (already normalized) join while the one-argument form stores the
declared path verbatim, unnormalized. -/
theorem c4_amended (content : List Char) (id : Nat) :
    mget (extractSourceFiles content) id
      = lastVal id ((splitLines content).filterMap
          (fileEntryOf (fun d f => normalize (join2 d f)) (fun q => normalize q))) none ∧
    mget (extractSourceFilesFromAssembly content) id
      = lastVal id ((splitLines content).filterMap
          (fileEntryOf (fun d f => join2 d f) (fun q => q))) none := by
  constructor
  · exact extractFilesGo_mget _ _ (splitLines content) [] id
  · exact extractFilesGo_mget _ _ (splitLines content) [] id

/-- The two possible boundary lists of `extractAllKernels`. -/
theorem kernelBoundaries_cases (content : List Char) :
    kernelBoundaries content = idxWhere sectionHit (splitLines content) 0 ∨
    kernelBoundaries content = idxWhere fallbackHit (splitLines content) 0 := by
  unfold kernelBoundaries
  by_cases h : (idxWhere sectionHit (splitLines content) 0).isEmpty = true
  · rw [if_pos h]
    right
    rfl
  · rw [if_neg h]
    left
    rfl

theorem kernelBoundaries_sorted (content : List Char) :
    List.Pairwise (fun a b => a < b) (kernelBoundaries content) := by
  rcases kernelBoundaries_cases content with h | h <;> rw [h] <;>
    exact idxWhere_sorted _ _ 0

theorem kernelBoundaries_lt (content : List Char) :
    ∀ b ∈ kernelBoundaries content, b < (splitLines content).length := by
  rcases kernelBoundaries_cases content with h | h <;> rw [h] <;> intro b hb <;>
    simpa using idxWhere_mem_lt _ _ 0 b hb

/-- C5, counterexample: a `.text` section that contains no qualifying
`.globl` in its first 21 lines is dropped, so the kept regions are not
contiguous — the second kernel does not start right after the first one
ends. -/
theorem c5_counterexample :
    (extractAllKernels
        ((".section .text.A\n.globl kernelAAA\nv_nop\n.section .text.B\n.section .text.C\n.globl kernelCCC").data)).map
        (fun k => (k.startLine, k.endLine)) = [(0, 2), (4, 5)] ∧
    ¬ (4 = 2 + 1) := by
  decide

/-- C5 (amended): the kernel regions of `extractAllKernels` are always
well-formed, pairwise disjoint and ordered by increasing startLine; and when
every detected section names a kernel symbol within its first 21 lines (no
region is dropped), they are also contiguous from the first detected
boundary to the buffer's last line. -/
theorem c5_amended (content : List Char) :
    (∀ k ∈ extractAllKernels content, k.startLine ≤ k.endLine) ∧
    List.Pairwise (fun a b => a.endLine < b.startLine) (extractAllKernels content) ∧
    ((∀ r ∈ regionsOf (kernelBoundaries content) (splitLines content).length,
        ¬ searchSym (splitLines content) r.1 r.2 = none) →
      List.Chain' (fun a b => b.startLine = a.endLine + 1) (extractAllKernels content) ∧
      (¬ kernelBoundaries content = [] →
        (extractAllKernels content).head?.map Kernel.startLine
            = (kernelBoundaries content).head? ∧
        (extractAllKernels content).getLast?.map Kernel.endLine
            = some ((splitLines content).length - 1))) := by
  have heq : extractAllKernels content
      = (regionsOf (kernelBoundaries content) (splitLines content).length).filterMap
          (fun r => (searchSym (splitLines content) r.1 r.2).map fun sym =>
            (⟨sym, r.1, r.2⟩ : Kernel)) := rfl
  have hsub := kernels_proj_sublist (splitLines content)
    (regionsOf (kernelBoundaries content) (splitLines content).length)
  refine ⟨?_, ?_, ?_⟩
  · intro k hk
    have hmem : (k.startLine, k.endLine)
        ∈ (extractAllKernels content).map fun k => (k.startLine, k.endLine) :=
      List.mem_map_of_mem _ hk
    rw [heq] at hmem
    have hr := hsub.subset hmem
    have := regionsOf_wf _ _ (kernelBoundaries_sorted content)
      (kernelBoundaries_lt content) _ hr
    simpa using this
  · have hdisj0 := regionsOf_disjoint (kernelBoundaries content)
      ((splitLines content).length) (kernelBoundaries_sorted content)
    have hdisj2 : List.Pairwise (fun a b => a.2 < b.1)
        ((extractAllKernels content).map fun k => (k.startLine, k.endLine)) := by
      rw [heq]
      exact List.Pairwise.sublist (kernels_proj_sublist _ _) hdisj0
    rw [List.pairwise_map] at hdisj2
    exact hdisj2
  · intro hnod
    have hmeq : (extractAllKernels content).map (fun k => (k.startLine, k.endLine))
        = regionsOf (kernelBoundaries content) (splitLines content).length := by
      rw [heq]
      exact kernels_proj_eq _ _ hnod
    constructor
    · have hch := regionsOf_chain (kernelBoundaries content)
        ((splitLines content).length) (kernelBoundaries_sorted content)
      rw [← hmeq, List.chain'_map] at hch
      exact hch
    · intro hne
      constructor
      · have hh := regionsOf_head (kernelBoundaries content) ((splitLines content).length)
        rw [← hmeq, List.head?_map, Option.map_map] at hh
        exact hh
      · have hl := regionsOf_last (kernelBoundaries content)
          ((splitLines content).length) hne
        rw [← hmeq, List.getLast?_map, Option.map_map] at hl
        exact hl

/-- C5, witness: the amended contiguity on a buffer whose two sections both
export a qualifying symbol. -/
theorem c5_witness :
    List.Chain' (fun a b => b.startLine = a.endLine + 1)
      (extractAllKernels
        ((".section .text.A\n.globl kernelAAA\nv_nop\n.section .text.C\n.globl kernelCCC").data)) ∧
    (extractAllKernels
        ((".section .text.A\n.globl kernelAAA\nv_nop\n.section .text.C\n.globl kernelCCC").data)).head?.map
        Kernel.startLine
      = (kernelBoundaries
          ((".section .text.A\n.globl kernelAAA\nv_nop\n.section .text.C\n.globl kernelCCC").data)).head? ∧
    (extractAllKernels
        ((".section .text.A\n.globl kernelAAA\nv_nop\n.section .text.C\n.globl kernelCCC").data)).getLast?.map
        Kernel.endLine
      = some ((splitLines
          ((".section .text.A\n.globl kernelAAA\nv_nop\n.section .text.C\n.globl kernelCCC").data)).length - 1) :=
  ⟨((c5_amended
      ((".section .text.A\n.globl kernelAAA\nv_nop\n.section .text.C\n.globl kernelCCC").data)).2.2
      (by decide)).1,
   ((c5_amended
      ((".section .text.A\n.globl kernelAAA\nv_nop\n.section .text.C\n.globl kernelCCC").data)).2.2
      (by decide)).2 (by decide)⟩

/-- C6, counterexample: `.loc 1 0 1` parses, its file-id resolves, and it is
the most recent location directive before line 1, yet the reverse map has no
entry for line 1 (the 0-indexed line is -1, an invalid state), so the
reverse lookup does not return the most recently set pair. -/
theorem c6_counterexample :
    rawStateAt (splitLines ((".loc 1 0 1\nv_add v0, v1").data)) 1 = some (1, 0) ∧
    mget [(1, ("a").data)] 1 = some (("a").data) ∧
    getSourceLocation
      (buildMapping ((".loc 1 0 1\nv_add v0, v1").data) [(1, ("a").data)]) 1 = none := by
  decide

/-- C6 (amended): for a line index `i` of the buffer whose most recent
location directive at or before `i` parses as `(f, L)` with `L ≥ 1` and `f`
resolving in the table, the reverse lookup returns that pair with the line
0-indexed — whatever kind of line (instruction, comment, directive, label)
index `i` holds; and an index preceding every location directive has no
entry in the reverse map and appears in no forward bucket. -/
theorem c6_amended (content : List Char) (table : List (Nat × List Char)) (i : Nat) :
    (∀ f L p, i < (splitLines content).length →
        rawStateAt (splitLines content) i = some (f, L) → 1 ≤ L →
        mget table f = some p →
        getSourceLocation (buildMapping content table) i
          = some (normalize p, (L : Int) - 1)) ∧
    (rawStateAt (splitLines content) i = none →
        getSourceLocation (buildMapping content table) i = none ∧
        ∀ q v, ¬ i ∈ (mget (buildMapping content table).sourceToAsm (q, v)).getD []) := by
  constructor
  · intro f L p hi hr hL hp
    exact rev_of_raw content table i f L p hi hr hL hp
  · intro hr
    constructor
    · exact rev_of_raw_none content table i hr
    · intro q v hmem
      have hmem2 : i ∈ bucketOf
          (buildLines table (splitLines content) 0 (bmSt none) ⟨[], []⟩) (q, v) := hmem
      rcases mem_bucket_build table (splitLines content) 0 none ⟨[], []⟩ q v i hmem2 with
        h | ⟨d, hd, hji, _, f, L, p, hraw, _⟩
      · simp [bucketOf, mget] at h
      · unfold rawStateAt at hr
        rw [show i = d from by omega] at hr
        rw [hr] at hraw
        cases hraw

/-- C6, witness: the reverse entry of a comment line under `.loc 1 7 1`. -/
theorem c6_witness :
    getSourceLocation
      (buildMapping ((".loc 1 7 1\n; comment").data) [(1, ("a").data)]) 1
      = some (normalize (("a").data), (7 : Int) - 1) :=
  (c6_amended ((".loc 1 7 1\n; comment").data) [(1, ("a").data)] 1).1 1 7 (("a").data)
    (by decide) (by decide) (by decide) (by decide)

/-- C7: the diff alignment of two extracted kernel line sequences has the
length of the longer one; at every position the changed flag is exact
whitespace-sensitive inequality of the raw lines with the shorter side
padded by empty strings; in particular at each padding position the flag
holds exactly when the longer side's text there is non-empty. -/
theorem c7_diff_alignment (ca cb : List Char) (s1 e1 s2 e2 : Nat)
    (h : (regionLines ca s1 e1).length ≤ (regionLines cb s2 e2).length) :
    (diffAlign (regionLines ca s1 e1) (regionLines cb s2 e2)).length
        = (regionLines cb s2 e2).length ∧
    (∀ j, j < (regionLines cb s2 e2).length →
      ((diffAlign (regionLines ca s1 e1) (regionLines cb s2 e2)).getD j
          ([], [], false)).2.2
        = decide (¬ (regionLines ca s1 e1).getD j []
            = (regionLines cb s2 e2).getD j [])) ∧
    (∀ j, (regionLines ca s1 e1).length ≤ j → j < (regionLines cb s2 e2).length →
      (((diffAlign (regionLines ca s1 e1) (regionLines cb s2 e2)).getD j
          ([], [], false)).2.2 = true
        ↔ ¬ (regionLines cb s2 e2).getD j [] = [])) :=
  diffAlign_pad _ _ h

/-- C7, witness: a length-1 region against a length-2 region. -/
theorem c7_witness :
    (diffAlign (regionLines (("a").data) 0 0) (regionLines (("a\nbb").data) 0 1)).length
        = (regionLines (("a\nbb").data) 0 1).length ∧
    (∀ j, j < (regionLines (("a\nbb").data) 0 1).length →
      ((diffAlign (regionLines (("a").data) 0 0) (regionLines (("a\nbb").data) 0 1)).getD j
          ([], [], false)).2.2
        = decide (¬ (regionLines (("a").data) 0 0).getD j []
            = (regionLines (("a\nbb").data) 0 1).getD j [])) ∧
    (∀ j, (regionLines (("a").data) 0 0).length ≤ j →
        j < (regionLines (("a\nbb").data) 0 1).length →
      (((diffAlign (regionLines (("a").data) 0 0) (regionLines (("a\nbb").data) 0 1)).getD j
          ([], [], false)).2.2 = true
        ↔ ¬ (regionLines (("a\nbb").data) 0 1).getD j [] = [])) :=
  c7_diff_alignment (("a").data) (("a\nbb").data) 0 0 0 1 (by decide)

/-- C8: staleness is computed over exactly the records sharing the selected
record's symbol; with more than one such record the latest has the maximal
modification time among them and the selected record is flagged outdated
exactly when its assembly file differs from the latest record's file; with
at most one such record the flag is never set. -/
theorem c8_staleness (mt : List Char → Nat) (sel : MatchRec) (ms : List MatchRec) :
    ((sameKernelMatches sel ms).length ≤ 1 → isOutdated mt sel ms = false) ∧
    (1 < (sameKernelMatches sel ms).length →
      ∃ latest, latestMatch mt sel ms = some latest ∧
        latest ∈ sameKernelMatches sel ms ∧
        (∀ m ∈ sameKernelMatches sel ms,
          mt m.assemblyFile ≤ mt latest.assemblyFile) ∧
        (isOutdated mt sel ms = true ↔ ¬ latest.assemblyFile = sel.assemblyFile)) := by
  constructor
  · intro hle
    unfold isOutdated
    rw [if_neg (by omega)]
  · intro hgt
    have hne : ¬ sameKernelMatches sel ms = [] := by
      intro h
      rw [h] at hgt
      simp at hgt
    obtain ⟨x, xs, hx⟩ : ∃ x xs, sortDesc mt (sameKernelMatches sel ms) = x :: xs := by
      cases hsd : sortDesc mt (sameKernelMatches sel ms) with
      | nil =>
        exfalso
        obtain ⟨y, hy⟩ := List.exists_mem_of_ne_nil _ hne
        have : y ∈ sortDesc mt (sameKernelMatches sel ms) := (sortDesc_mem mt _ y).2 hy
        rw [hsd] at this
        simp at this
      | cons x xs => exact ⟨x, xs, rfl⟩
    refine ⟨x, ?_, ?_, ?_, ?_⟩
    · unfold latestMatch
      rw [hx]
      rfl
    · exact (sortDesc_mem mt _ x).1 (hx ▸ List.mem_cons_self x xs)
    · intro m hm
      have hmem : m ∈ sortDesc mt (sameKernelMatches sel ms) := (sortDesc_mem mt _ m).2 hm
      rw [hx] at hmem
      rcases List.mem_cons.1 hmem with hm2 | hm2
      · rw [hm2]
      · have hs := sortDesc_sorted mt (sameKernelMatches sel ms)
        rw [hx] at hs
        exact (List.pairwise_cons.1 hs).1 m hm2
    · unfold isOutdated
      rw [if_pos hgt]
      simp only [hx, List.head?_cons]
      by_cases heq : x.assemblyFile = sel.assemblyFile
      · rw [if_pos heq]
        simp [heq]
      · rw [if_neg heq]
        simp [heq]

/-- C8, witness: two same-symbol records, the later-modified one in another
build directory; the selected record is flagged outdated. -/
theorem c8_witness :
    ∃ latest,
      latestMatch (fun q => q.length) ⟨("k1mangled").data, ("x.s").data, ("b1").data⟩
        [⟨("k1mangled").data, ("x.s").data, ("b1").data⟩,
         ⟨("k1mangled").data, ("yy.s").data, ("b2").data⟩] = some latest ∧
      latest ∈ sameKernelMatches ⟨("k1mangled").data, ("x.s").data, ("b1").data⟩
        [⟨("k1mangled").data, ("x.s").data, ("b1").data⟩,
         ⟨("k1mangled").data, ("yy.s").data, ("b2").data⟩] ∧
      (∀ m ∈ sameKernelMatches ⟨("k1mangled").data, ("x.s").data, ("b1").data⟩
          [⟨("k1mangled").data, ("x.s").data, ("b1").data⟩,
           ⟨("k1mangled").data, ("yy.s").data, ("b2").data⟩],
        (fun q => q.length : List Char → Nat) m.assemblyFile
          ≤ (fun q => q.length : List Char → Nat) latest.assemblyFile) ∧
      (isOutdated (fun q => q.length) ⟨("k1mangled").data, ("x.s").data, ("b1").data⟩
          [⟨("k1mangled").data, ("x.s").data, ("b1").data⟩,
           ⟨("k1mangled").data, ("yy.s").data, ("b2").data⟩] = true
        ↔ ¬ latest.assemblyFile = ("x.s").data) :=
  (c8_staleness (fun q => q.length) ⟨("k1mangled").data, ("x.s").data, ("b1").data⟩
    [⟨("k1mangled").data, ("x.s").data, ("b1").data⟩,
     ⟨("k1mangled").data, ("yy.s").data, ("b2").data⟩]).2 (by decide)

/-- C9, counterexample: a failing `stat` on one entry is caught by the outer
try/catch of `scanDirectory`, abandoning the remaining entries of that
directory: with the stat-failing file present the sibling's kernel is lost,
so the output does not equal the output on the tree with the bad entry
removed. -/
theorem c9_counterexample :
    scanEntries (("build").data) (("/ws/build").data)
        [FSEntry.file (("x-hip-amdgcn-amd-amdhsa-gfx90a.s").data) false true
          (("\t.section\t.text.foo\n\t.globl\tmykernel1").data),
         FSEntry.file (("y-hip-amdgcn-amd-amdhsa-gfx90a.s").data) true true
          (("\t.section\t.text.foo\n\t.globl\tmykernel1").data)] = [] ∧
    ¬ scanEntries (("build").data) (("/ws/build").data)
        [FSEntry.file (("y-hip-amdgcn-amd-amdhsa-gfx90a.s").data) true true
          (("\t.section\t.text.foo\n\t.globl\tmykernel1").data)] = [] := by
  refine ⟨?_, ?_⟩
  · simp only [scanEntries]
    decide
  · simp only [scanEntries]
    decide

/-- C9 (amended): a single file whose `readFile` fails never changes the
scanner's output relative to the same tree with that file removed (the inner
try/catch skips just that file, at any nesting depth); and a missing build
root is skipped without affecting the other roots' results.  (A failing
`stat`, by contrast, abandons only the remaining entries of the directory
that contains it.) -/
theorem c9_amended :
    (∀ (tag p : List Char) (es es' : List FSEntry), RemovedRead es es' →
      scanEntries tag p es = scanEntries tag p es') ∧
    (∀ (ws : List Char) (l1 l2 : List (List Char × Option FSEntry)) (name : List Char),
      findAssemblyFiles ws (l1 ++ (name, none) :: l2)
        = findAssemblyFiles ws (l1 ++ l2)) := by
  constructor
  · intro tag p es es' h
    exact scanEntries_removedRead tag es es' h p
  · intro ws l1 l2 name
    exact findAssemblyFiles_missing_root ws l1 l2 name

/-- C9, witness: deleting a read-failing file leaves the scan unchanged, and
a missing root contributes nothing. -/
theorem c9_witness :
    scanEntries (("build").data) (("/ws/build").data)
        [FSEntry.file (("y-hip-amdgcn-amd-amdhsa-gfx90a.s").data) true false
          (("junk").data),
         FSEntry.file (("z-hip-amdgcn-amd-amdhsa-gfx90a.s").data) true true
          (("\t.section\t.text.foo\n\t.globl\tmykernel1").data)]
      = scanEntries (("build").data) (("/ws/build").data)
        [FSEntry.file (("z-hip-amdgcn-amd-amdhsa-gfx90a.s").data) true true
          (("\t.section\t.text.foo\n\t.globl\tmykernel1").data)] ∧
    findAssemblyFiles (("/ws").data) [(("build").data, none)]
      = findAssemblyFiles (("/ws").data) [] :=
  ⟨c9_amended.1 (("build").data) (("/ws/build").data) _ _
      (RemovedRead.here []
        [FSEntry.file (("z-hip-amdgcn-amd-amdhsa-gfx90a.s").data) true true
          (("\t.section\t.text.foo\n\t.globl\tmykernel1").data)]
        (("y-hip-amdgcn-amd-amdhsa-gfx90a.s").data) (("junk").data)),
   c9_amended.2 (("/ws").data) [] [] (("build").data)⟩

/-- C10: cross-map consistency of `buildMapping` — every assembly index in a
forward bucket also has a reverse entry, and that entry equals the bucket's
key (normalized path and 0-indexed source line). -/
theorem c10_cross_consistency (content : List Char) (table : List (Nat × List Char))
    (q : List Char) (v : Int) (j : Nat)
    (hj : j ∈ (mget (buildMapping content table).sourceToAsm (q, v)).getD []) :
    mget (buildMapping content table).asmToSource j = some (q, v) := by
  have hj2 : j ∈ bucketOf
      (buildLines table (splitLines content) 0 (bmSt none) ⟨[], []⟩) (q, v) := hj
  rcases mem_bucket_build table (splitLines content) 0 none ⟨[], []⟩ q v j hj2 with
    h | ⟨d, hd, hji, _, f, L, p, hraw, hL, hp, hq, hv⟩
  · simp [bucketOf, mget] at h
  · subst hq
    subst hv
    have hjd : j = d := by omega
    subst hjd
    exact rev_of_raw content table j f L p (by omega) hraw hL hp

/-- C10, witness: the bucket member at index 1 has the matching reverse
entry. -/
theorem c10_witness :
    mget (buildMapping ((".loc 1 5 1\n v_add v0, v1").data)
        [(1, ("a").data)]).asmToSource 1 = some ((("a").data), 4) :=
  c10_cross_consistency ((".loc 1 5 1\n v_add v0, v1").data) [(1, ("a").data)]
    (("a").data) 4 1 (by decide)

end Hipster
